import Mathlib

/-
Verification of the discovery-and-extraction pipeline of `scrape_airbnb.py`.

The Python source drives a headless browser; here the browser is replaced by
explicit page-state structures (element texts, anchors with ancestor texts,
aria-labels, embedded script payloads), and every pure computation of the
source — the regex tables, the dedup helper, the frontier-collection loop,
the per-field extractors and the record assembly — is embedded as an
executable Lean definition.  Strings are modelled by Lean `String`/`List Char`
(the fixtures are ASCII; case folding is ASCII, as noted where it matters).
-/

namespace Scrape

/-! ### Generic character/string helpers (JS `trim`, `replace(/\s+/g,' ')`, case folding) -/

/-- ASCII lower-casing of one character, matching `re.I`/JS `i` on ASCII input.  -/
def lowerChar (c : Char) : Char := c.toLower

def lowerList (cs : List Char) : List Char := cs.map lowerChar

/-- Index of the first occurrence of `needle` in `hay` (character index). -/
def findSubIdx (needle : List Char) : List Char → Option Nat
  | [] => if needle.isEmpty then some 0 else none
  | c :: t =>
    if needle.isPrefixOf (c :: t) then some 0
    else (findSubIdx needle t).map (· + 1)

def containsSub (needle hay : String) : Bool :=
  (findSubIdx needle.toList hay.toList).isSome

/-- Case-insensitive (ASCII) substring test. -/
def containsSubCI (needle hay : String) : Bool :=
  (findSubIdx (lowerList needle.toList) (lowerList hay.toList)).isSome

/-- Leftmost index at which any of the alternative literals occurs: the
`search` of a regex that is a plain alternation of literals. -/
def searchAltsIdx (alts : List (List Char)) : List Char → Option Nat
  | [] => none
  | c :: t =>
    if alts.any (fun a => a.isPrefixOf (c :: t)) then some 0
    else (searchAltsIdx alts t).map (· + 1)

/-- JS `String.replace(/\s+/g, ' ')`: every maximal whitespace run becomes one
space.  `inWs` records whether the previous character was whitespace. -/
def collapseWsGo (inWs : Bool) : List Char → List Char
  | [] => []
  | c :: t =>
    if c.isWhitespace then
      if inWs then collapseWsGo true t else ' ' :: collapseWsGo true t
    else c :: collapseWsGo false t

def collapseWs (cs : List Char) : List Char := collapseWsGo false cs

def trimChars (cs : List Char) : List Char :=
  ((cs.dropWhile Char.isWhitespace).reverse.dropWhile Char.isWhitespace).reverse

/-- JS helper `clean(t)`: collapse whitespace runs to single spaces, then trim. -/
def cleanWsL (cs : List Char) : List Char := trimChars (collapseWs cs)

def cleanStr (s : String) : String := String.mk (cleanWsL s.toList)

/-- JS `trim()` / Python `strip()` on whitespace, computed on the character
lists so that it evaluates inside the kernel. -/
def pyTrim (s : String) : String := String.mk (trimChars s.toList)

/-- Test that `p` is a prefix of `s` (Python `startswith`, JS scheme tests), computed
on the character lists. -/
def strStarts (p s : String) : Bool := p.toList.isPrefixOf s.toList

/-! ### `uniq` (source lines 19–25) and its first-occurrence specification -/

/-- Loop of `uniq`: `seen` is the membership set, `out` is built in input
order.  The Python `set` is modelled by a list used only through membership. -/
def uniqAux {α : Type} [DecidableEq α] (seen : List α) : List α → List α
  | [] => []
  | x :: xs => if x ∈ seen then uniqAux seen xs else x :: uniqAux (x :: seen) xs

/-- Model of `uniq(seq)` of the source: first-occurrence-preserving deduplication. -/
def uniq {α : Type} [DecidableEq α] (xs : List α) : List α := uniqAux [] xs

/-- Specification-side deduplicator, written to make "order of first
occurrence" manifest: each element is kept where it first appears and all of
its later copies are filtered out. -/
def firstSeenSpec {α : Type} [DecidableEq α] : List α → List α
  | [] => []
  | x :: xs => x :: firstSeenSpec (xs.filter (fun y => decide (y ≠ x)))
termination_by xs => xs.length
decreasing_by
  simp only [List.length_cons]
  exact Nat.lt_succ_of_le (List.length_filter_le _ _)

/-! ### The regex tables of the source, as executable matchers

`REG_LABEL`, `JOINED_PAT` and `HOST_KEYWORDS` are plain alternations of
literals used only through `.test`/`.search`, so they are modelled by
substring searches over the expanded alternative lists (character classes
like `licen[cs]e` are expanded).  `REG_CODE` and `RATING_NEAR_HOST` are
implemented as dedicated backtracking matchers with Python/JS semantics:
leftmost match position, ordered alternation, greedy quantifiers with
backtracking, ASCII-case-insensitive. -/

/-- Alternatives of `REG_LABEL` (source lines 36–38), lower-cased. -/
def regLabelAlts : List (List Char) :=
  ["registration", "enregistr", "license", "licence", "permit", "dtcm",
   "الترخيص", "licencia", "licença", "许可", "등록"].map (fun s => s.toList)

/-- Model of `REG_LABEL.search(s)` (case-insensitive leftmost index; `None` if absent). -/
def regLabelIdx (s : String) : Option Nat :=
  searchAltsIdx regLabelAlts (lowerList s.toList)

/-- Model of `REG_LABEL.test(s)` / `re.search(REG_LABEL, s) is not None`. -/
def regLabelTest (s : String) : Bool := (regLabelIdx s).isSome

/-- Alternatives of `HOST_KEYWORDS` (source lines 27–30), lower-cased, with
the bracket classes `h[oô]te`, `anfitri[oó]n`, `anfitri[aã]o` expanded. -/
def hostKeyAlts : List (List Char) :=
  ["meet your host", "rencontrez votre hote", "rencontrez votre hôte",
   "conoce a tu anfitrion", "conoce a tu anfitrión", "dein gastgeber",
   "il tuo host", "seu anfitriao", "seu anfitrião",
   "conheça seu anfitriao", "conheça seu anfitrião",
   "host", "hote", "hôte"].map (fun s => s.toList)

/-- Model of `HOST_KEYWORDS.test(s)` of the JS side (`HOST_RE.test`). -/
def hostKeyTest (s : String) : Bool :=
  (searchAltsIdx hostKeyAlts (lowerList s.toList)).isSome

/-- Alternatives of `JOINED_PAT` (source lines 44–47), with `registrad[oa] en`
expanded.  The pattern carries `re.I`. -/
def joinedAlts : List (List Char) :=
  ["joined in", "membre depuis", "inscrit en", "registrado en",
   "registrada en", "iscritto dal", "entrou em", "登録", "加入",
   "mitglied seit"].map (fun s => s.toList)

def joinedIdx (s : String) : Option Nat :=
  searchAltsIdx joinedAlts (lowerList s.toList)

/-! #### `REG_CODE`: `\b([A-Z0-9]{3,}(?:-[A-Z0-9]{2,})+|\d{4,12})\b`, `re.I`

The first alternative is a run of 3+ alphanumerics followed by one or more
`-run(2+)` groups; the second is a bare 4–12 digit number; both are bracketed
by word boundaries.  Greedy runs are maximal-munch; the only places real
backtracking can change the outcome are (a) a trailing `_` after the first
alternative (word character, so `\b` fails and the engine drops the last
hyphen group, landing the boundary on the `-`), and (b) digit runs longer
than 12, which can never satisfy both boundaries.  Both are reflected below. -/

def isCodeChar (c : Char) : Bool := c.isAlphanum

def isWordChar (c : Char) : Bool := c.isAlphanum || c == '_'

/-- Trailing `\b` after a maximal alphanumeric run: the next character is
already non-alphanumeric, so the boundary fails only on `_`. -/
def boundaryOk : List Char → Bool
  | [] => true
  | c :: _ => !isWordChar c

/-- Greedy parse of `(?:-[A-Z0-9]{2,})+` pieces; returns the parts and the
rest.  Fuel is the input length, which bounds the iteration count since each
piece consumes at least three characters. -/
def hyphenPartsGo : Nat → List Char → List (List Char) × List Char
  | 0, cs => ([], cs)
  | fuel + 1, cs =>
    match cs with
    | '-' :: rest =>
      let r := rest.takeWhile isCodeChar
      if 2 ≤ r.length then
        let next := hyphenPartsGo fuel (rest.dropWhile isCodeChar)
        (r :: next.1, next.2)
      else ([], cs)
    | _ => ([], cs)

def hyphenParts (cs : List Char) : List (List Char) × List Char :=
  hyphenPartsGo cs.length cs

def codeJoin (r0 : List Char) (ps : List (List Char)) : List Char :=
  r0 ++ (ps.map (fun p => '-' :: p)).flatten

/-- First `REG_CODE` alternative attempted at the current position. -/
def alt1At (cs : List Char) : Option (List Char) :=
  let r0 := cs.takeWhile isCodeChar
  if 3 ≤ r0.length then
    let pr := hyphenParts (cs.dropWhile isCodeChar)
    if pr.1.isEmpty then none
    else if boundaryOk pr.2 then some (codeJoin r0 pr.1)
    else if 2 ≤ pr.1.length then some (codeJoin r0 pr.1.dropLast)
    else none
  else none

/-- Second `REG_CODE` alternative (`\d{4,12}`) attempted at the position. -/
def alt2At (cs : List Char) : Option (List Char) :=
  let d := cs.takeWhile Char.isDigit
  if 4 ≤ d.length ∧ d.length ≤ 12 then
    if boundaryOk (cs.dropWhile Char.isDigit) then some d else none
  else none

/-- Position scan of `REG_CODE`: at each position whose preceding character is
not a word character (leading `\b`), try alternative 1 then alternative 2. -/
def regCodeGo (prev : Option Char) : List Char → Option (List Char)
  | [] => none
  | c :: t =>
    let prevOk := match prev with
      | none => true
      | some pc => !isWordChar pc
    match (if prevOk then ((alt1At (c :: t)).orElse fun _ => alt2At (c :: t)) else none) with
    | some m => some m
    | none => regCodeGo (some c) t

/-- Model of `m = s.match(REG_CODE); m[1].trim()` of the JS side (also
`re.search(REG_CODE, s).group(1)` on the Python side). -/
def regCodeSearch (s : String) : Option String :=
  (regCodeGo none s.toList).map (fun m => pyTrim (String.mk m))

/-! #### `RATING_NEAR_HOST`: `([0-5](?:[,.]\d{1,2})?)\s*(?:/|sur|de|von|da)?\s*5`, `re.I` -/

/-- The captured group of `RATING_NEAR_HOST`: one digit `0`–`5`, optionally a
comma/point separator and one or two fraction digits. -/
structure RatCand where
  whole : Char
  sep : Option Char
  frac : List Char
deriving DecidableEq, Repr

def ratingDigit (c : Char) : Bool := '0' ≤ c && c ≤ '5'

def ratingSeps : List (List Char) := ["/", "sur", "de", "von", "da"].map (fun s => s.toList)

/-- Matches `\s*(?:/|sur|de|von|da)?\s*5` from the given position.  Whitespace
skipping is maximal-munch, which is complete here because every continuation
starts with a non-space character. -/
def ratingTail (cs : List Char) : Bool :=
  let r := cs.dropWhile Char.isWhitespace
  (ratingSeps.any fun sep =>
    if sep.isPrefixOf (lowerList r) then
      match (r.drop sep.length).dropWhile Char.isWhitespace with
      | '5' :: _ => true
      | _ => false
    else false) ||
  (match r with
   | '5' :: _ => true
   | _ => false)

/-- One match attempt at the current position: the optional fraction is
greedy (two digits, then one, then absent), each followed by the tail. -/
def ratingAt : List Char → Option RatCand
  | [] => none
  | c :: rest =>
    if ratingDigit c then
      match rest with
      | s :: d1 :: d2 :: r2 =>
        if (s == ',' || s == '.') && d1.isDigit && d2.isDigit && ratingTail r2 then
          some ⟨c, some s, [d1, d2]⟩
        else if (s == ',' || s == '.') && d1.isDigit && ratingTail (d2 :: r2) then
          some ⟨c, some s, [d1]⟩
        else if ratingTail rest then some ⟨c, none, []⟩
        else none
      | [s, d1] =>
        if (s == ',' || s == '.') && d1.isDigit && ratingTail [] then
          some ⟨c, some s, [d1]⟩
        else if ratingTail rest then some ⟨c, none, []⟩
        else none
      | _ => if ratingTail rest then some ⟨c, none, []⟩ else none
    else none

/-- Leftmost `RATING_NEAR_HOST` match over the whole text. -/
def ratingGo : List Char → Option RatCand
  | [] => none
  | c :: t =>
    match ratingAt (c :: t) with
    | some m => some m
    | none => ratingGo t

/-- JS `m[1].replace(',', '.')` applied to the captured rating group. -/
def rcJsNorm (rc : RatCand) : String :=
  match rc.sep with
  | none => String.mk [rc.whole]
  | some _ => String.mk (rc.whole :: '.' :: rc.frac)

/-! #### Python `str(round(float(x), 2))` on the rating strings

The inputs reaching this normalization are exactly the JS-normalized rating
groups: one digit `0`–`5`, optionally `.` plus one or two fraction digits.
Such values are exact two-decimal quantities, so `round(·, 2)` is the
identity on them, and CPython `str` of the resulting float prints the
shortest decimal form: the fraction with trailing zeros stripped, or `.0`
for whole numbers.  The function below is that formatting, exact on this
input domain. -/

def stripZeros (cs : List Char) : List Char :=
  (cs.reverse.dropWhile (fun c => c == '0')).reverse

def pyRound2L (cs : List Char) : List Char :=
  let ip := cs.takeWhile (fun c => c != '.')
  let fp := (cs.dropWhile (fun c => c != '.')).drop 1
  let f := stripZeros fp
  if f.isEmpty then ip ++ ['.', '0'] else ip ++ '.' :: f

def pyRound2Str (s : String) : String := String.mk (pyRound2L s.toList)

/-- Decimal value of a normalized rating string (`d` or `d.f…`), as a
rational; used only to state value bounds. -/
def ratStrVal (s : String) : Option ℚ :=
  match s.toList with
  | [] => none
  | d :: rest =>
    if d.isDigit then
      match rest with
      | [] => some ((d.toNat - 48 : ℕ) : ℚ)
      | '.' :: fs =>
        if fs ≠ [] ∧ fs.all Char.isDigit then
          some (((d.toNat - 48 : ℕ) : ℚ) +
            ((Nat.ofDigits 10 ((fs.map (fun c => c.toNat - 48)).reverse) : ℕ) : ℚ) /
              ((10 : ℚ) ^ fs.length))
        else none
      | _ => none
    else none

/-! #### The JS host-name capture patterns (source lines 198–202)

`m = txt.match(/Hosted by\s+([^\n•|,]+)/i) || txt.match(/H[ôo]te[ :]*\s*…/i)
|| …` — five patterns tried in order, each searched leftmost over the
cleaned section text.  The capture class `[^\n•|,]+` is greedy; when the
maximal capture at a position is empty the engine backtracks the preceding
`\s+`/`[ :]*\s*` by one character, donating it to the capture when the class
allows (it excludes only `\n • | ,`). -/

def hnAllowed (c : Char) : Bool := !(c == '\n' || c == '•' || c == '|' || c == ',')

/-- Tail `\s+([^\n•|,]+)` of the `Hosted by` pattern. -/
def hnTail1 (cs : List Char) : Option (List Char) :=
  let w := cs.takeWhile Char.isWhitespace
  if w.isEmpty then none
  else
    let rest := cs.dropWhile Char.isWhitespace
    let cap := rest.takeWhile hnAllowed
    if cap.isEmpty then ((w.drop 1).reverse.find? hnAllowed).map (fun c => [c])
    else some cap

/-- Tail `[ :]*\s*([^\n•|,]+)` of the other four patterns. -/
def hnTail2 (cs : List Char) : Option (List Char) :=
  let r1 := cs.takeWhile (fun c => c == ' ' || c == ':')
  let m1 := cs.dropWhile (fun c => c == ' ' || c == ':')
  let r2 := m1.takeWhile Char.isWhitespace
  let rest := m1.dropWhile Char.isWhitespace
  let cap := rest.takeWhile hnAllowed
  if cap.isEmpty then ((r1 ++ r2).reverse.find? hnAllowed).map (fun c => [c])
  else some cap

/-- Scan for the leftmost position where one of the (lower-cased) label
alternatives is a prefix and its tail matches; `orig`/`low` walk the original
and lower-cased text in lockstep so the capture keeps the original case. -/
def scanPat (labels : List (List Char)) (tailFn : List Char → Option (List Char)) :
    List Char → List Char → Option (List Char)
  | oc :: ot, _ :: lt =>
    match labels.findSome? (fun lab =>
        if lab.isPrefixOf (lowerList (oc :: ot)) then tailFn ((oc :: ot).drop lab.length)
        else none) with
    | some r => some r
    | none => scanPat labels tailFn ot lt
  | _, _ => none

/-- The five `||`-chained host-name patterns applied to the cleaned text. -/
def hostNamePats (txt : List Char) : Option (List Char) :=
  let low := lowerList txt
  ((((scanPat [("hosted by").toList] hnTail1 txt low).orElse fun _ =>
      scanPat [("hôte").toList, ("hote").toList] hnTail2 txt low).orElse fun _ =>
      scanPat [("anfitrióna").toList, ("anfitriona").toList,
               ("anfitrión").toList, ("anfitrion").toList] hnTail2 txt low).orElse fun _ =>
      scanPat [("gastgeber").toList] hnTail2 txt low).orElse fun _ =>
      scanPat [("ospite").toList] hnTail2 txt low

/-! #### The month/year regex of the profile page (source line 267)

`(Jan\w+|F[ée]v\w+|Mar\w+|Avr\w+|Mai|Jun\w+|Jul\w+|Ao[ûu]t|Sep\w+|Oct\w+|
Nov\w+|D[ée]c\w+|January|…|December)\s+\d{4}|\b\d{4}\b` — case-SENSITIVE
(the literal has no flag).  A month alternative marked `\w+` consumes the
prefix plus a non-empty maximal word run. -/

/-- Month alternatives in pattern order, each with its `\w+` flag. -/
def monthAlts : List (List Char × Bool) :=
  [("Jan", true), ("Fév", true), ("Fev", true), ("Mar", true), ("Avr", true),
   ("Mai", false), ("Jun", true), ("Jul", true), ("Août", false), ("Aout", false),
   ("Sep", true), ("Oct", true), ("Nov", true), ("Déc", true), ("Dec", true),
   ("January", false), ("February", false), ("March", false), ("April", false),
   ("May", false), ("June", false), ("July", false), ("August", false),
   ("September", false), ("October", false), ("November", false),
   ("December", false)].map (fun p => (p.1.toList, p.2))

/-- Tail `\s+\d{4}` after a month alternative: whitespace run (≥ 1) then exactly
four digits (consumed greedily; no trailing boundary in this branch). -/
def monthTail (cs : List Char) : Option (List Char) :=
  let w := cs.takeWhile Char.isWhitespace
  if w.isEmpty then none
  else
    let rest := cs.dropWhile Char.isWhitespace
    let ds := (rest.takeWhile Char.isDigit).take 4
    if ds.length = 4 then some (w ++ ds) else none

/-- One month-form attempt at the current position. -/
def monthFormAt (cs : List Char) : Option (List Char) :=
  monthAlts.findSome? (fun alt =>
    if alt.1.isPrefixOf cs then
      let afterLabel := cs.drop alt.1.length
      if alt.2 then
        let w := afterLabel.takeWhile isWordChar
        if w.isEmpty then none
        else (monthTail (afterLabel.dropWhile isWordChar)).map
          (fun t => alt.1 ++ w ++ t)
      else (monthTail afterLabel).map (fun t => alt.1 ++ t)
    else none)

/-- Bare `\b\d{4}\b` attempt at the current position. -/
def bareYearAt (prev : Option Char) (cs : List Char) : Option (List Char) :=
  let prevOk := match prev with
    | none => true
    | some pc => !isWordChar pc
  if prevOk then
    let d := cs.takeWhile Char.isDigit
    if d.length = 4 ∧ boundaryOk (cs.dropWhile Char.isDigit) then some d else none
  else none

/-- Leftmost match of the month/year regex (`m[0]`, the whole match). -/
def monthYearGo (prev : Option Char) : List Char → Option (List Char)
  | [] => none
  | c :: t =>
    match (monthFormAt (c :: t)).orElse fun _ => bareYearAt prev (c :: t) with
    | some m => some m
    | none => monthYearGo (some c) t

/-! ### URL helpers -/

/-- Python `h.split('?')[0]`: drop the query (everything from the first `?`). -/
def stripQuery (h : String) : String :=
  String.mk (h.toList.takeWhile (fun c => c != '?'))

def originOf (base : String) : String :=
  match searchAltsIdx [[':', '/', '/']] base.toList with
  | some i =>
    String.mk (base.toList.take (i + 3) ++
      ((base.toList.drop (i + 3)).takeWhile (fun c => c != '/')))
  | none => base

def schemeOf (base : String) : String :=
  String.mk (base.toList.takeWhile (fun c => c != ':'))

def baseDir (base : String) : String :=
  String.mk ((base.toList.reverse.dropWhile (fun c => c != '/')).reverse)

/-- Model of `urllib.parse.urljoin(base, h)` restricted to the reference shapes this
crawl produces: absolute references, scheme-relative `//…`, root-relative
`/…`, and plain relative segments (resolved against the base directory; no
dot-segment handling, which the fixtures never need). -/
def urljoinModel (base h : String) : String :=
  if h = "" then base
  else if strStarts "http://" h || strStarts "https://" h then h
  else if strStarts "//" h then schemeOf base ++ ":" ++ h
  else if strStarts "/" h then originOf base ++ h
  else baseDir base ++ h

/-- JS `new URL(href, location.origin).toString()` for the same shapes. -/
def newUrlOrigin (origin href : String) : String :=
  if strStarts "http://" href || strStarts "https://" href then href
  else if strStarts "/" href then origin ++ href
  else origin ++ "/" ++ href

/-! ### Page state

The browser DOM is replaced by the exact observations the extraction scripts
make of it.  A `LicElem` is one element of the `div,section,li,p,span` query
of `extract_license_code`: its own `innerText`, the `innerText` of its next
element siblings in order, and of its descendants in document order.  A
`HostAnchor` is one `a[href*="/users/show/"]` anchor together with the
`innerText` of its successive ancestors (index 0 is the parent) and the
`aria-label` attributes found inside its sixth-ancestor section, in document
order.  `scripts` holds the text of embedded `script` payloads; script text
does not appear in `innerText`, and no extractor in the source reads it. -/

structure LicElem where
  text : String
  siblingTexts : List String
  descendantTexts : List String
deriving DecidableEq, Repr

structure HostAnchor where
  href : String
  innerText : String
  ariaLabel : String
  titleAttr : String
  ancestorTexts : List String
  sectionAriaLabels : List String
deriving DecidableEq, Repr

structure ListingPage where
  anchors : List HostAnchor
  bodyText : String
  bodyAriaLabels : List String
  elements : List LicElem
  scripts : List String
deriving DecidableEq, Repr

/-! ### `extract_license_code` (source lines 84–152)

The panel-opening clicks (`maybe_click(page, openers)`) only change which DOM
the subsequent script sees; a `ListingPage` models the DOM as that script
observes it, so the clicks need no separate model.  The page script walks all
`div,section,li,p,span` elements in order; for an element whose trimmed text
matches `REG_LABEL` it tries (1) `REG_CODE` in the same text, (2) the first
match among the next up-to-4 siblings' non-empty texts, (3) the first match
among the element's descendants' non-empty texts; if a labelled element
yields nothing the walk continues.  Finally the whole-body text, whitespace-
collapsed, is searched for the label and `REG_CODE` is applied to the 200
characters from the label position. -/

def licSibCode (sibs : List String) : Option String :=
  (sibs.take 4).findSome? (fun s =>
    let tt := pyTrim s
    if tt = "" then none else regCodeSearch tt)

def licDescCode (descs : List String) : Option String :=
  descs.findSome? (fun s =>
    let ts := pyTrim s
    if ts = "" then none else regCodeSearch ts)

def licElemCode (e : LicElem) : Option String :=
  let t := pyTrim e.text
  if t = "" then none
  else if regLabelTest t then
    match regCodeSearch t with
    | some m => some m
    | none =>
      match licSibCode e.siblingTexts with
      | some m => some m
      | none => licDescCode e.descendantTexts
  else none

def extract_license_code (p : ListingPage) : Option String :=
  match p.elements.findSome? licElemCode with
  | some c => some c
  | none =>
    let body := String.mk (collapseWs p.bodyText.toList)
    match regLabelIdx body with
    | some i => regCodeSearch (String.mk ((body.toList.drop i).take 200))
    | none => none

/-! ### `extract_host_block` (source lines 154–248) -/

/-- Texts scanned by the ancestor walk `while(el && steps < 6)`: the anchor
itself and its first five ancestors, each cleaned before the test. -/
def hostScanTexts (a : HostAnchor) : List String :=
  a.innerText :: a.ancestorTexts.take 5

/-- Anchor selection: first anchor whose self-or-ancestor text matches the
host keywords; else first anchor whose `aria-label + ' ' + title` matches;
else the first `/users/show/` anchor on the page. -/
def chooseHostAnchor (p : ListingPage) : Option HostAnchor :=
  match p.anchors.find? (fun a => (hostScanTexts a).any (fun t => hostKeyTest (cleanStr t))) with
  | some a => some a
  | none =>
    match p.anchors.find? (fun a => hostKeyTest (a.ariaLabel ++ " " ++ a.titleAttr)) with
    | some a => some a
    | none => p.anchors.head?

/-- The `box`/`sec` node: six `parentElement` steps up from the anchor, or
`document.body` when the chain is shorter.  Its `innerText`: -/
def anchorRootText (p : ListingPage) (a : HostAnchor) : String :=
  match a.ancestorTexts.get? 5 with
  | some t => t
  | none => p.bodyText

/-- The `aria-label` values inside that same section, in document order. -/
def anchorSectionAria (p : ListingPage) (a : HostAnchor) : List String :=
  match a.ancestorTexts.get? 5 with
  | some _ => a.sectionAriaLabels
  | none => p.bodyAriaLabels

structure HostBlock where
  host_profile_url : Option String
  host_name : Option String
  host_overall_rating : Option String
deriving DecidableEq, Repr

/-- The JS extraction plus the Python-side rating normalization
`str(round(float(x.replace(',', '.')), 2))`.  `origin` is `location.origin`
of the listing page. -/
def extract_host_block (origin : String) (p : ListingPage) : HostBlock :=
  match chooseHostAnchor p with
  | none => ⟨none, none, none⟩
  | some a =>
    let hostUrl := newUrlOrigin origin a.href
    let rootTxt := anchorRootText p a
    let hostName :=
      match hostNamePats (cleanWsL rootTxt.toList) with
      | some m => some (cleanStr (String.mk m))
      | none =>
        let t := cleanStr a.innerText
        if !t.isEmpty && t.length ≤ 60 then some t else none
    let ratingJs :=
      match (anchorSectionAria p a).findSome? (fun al => (ratingGo al.toList).map rcJsNorm) with
      | some r => some r
      | none => (ratingGo rootTxt.toList).map rcJsNorm
    ⟨some hostUrl, hostName, ratingJs.map pyRound2Str⟩

/-! ### `extract_from_host_profile` (source lines 250–300)

The profile visit is modelled by an oracle from profile URLs to pages:
`none` means the navigation raises (the function has no `except` around it,
so the exception propagates to the caller), `some` gives the observations of
the profile page.  `headerText` is the first `h1, h2` inner text (`none` if
the locator raised), `ratingAriaLabels` the `aria-label` values of the nodes
matched by the `out of 5`-style selectors, in order. -/

structure ProfilePage where
  bodyText : String
  headerText : Option String
  ratingAriaLabels : List String
deriving DecidableEq, Repr

structure ProfileOut where
  host_name : Option String
  host_overall_rating : Option String
  host_joined : Option String
deriving DecidableEq, Repr

/-- Python truthiness of the optional strings flowing through the source
(`None` and `""` are falsy). -/
def truthy : Option String → Bool
  | none => false
  | some s => !s.isEmpty

/-- Python `a or b` on those values. -/
def pyOr (a b : Option String) : Option String := if truthy a then a else b

def orEmpty : Option String → String
  | none => ""
  | some s => s

/-- Joined-date scan of the profile body: collapse whitespace, find the
`JOINED_PAT` label, and apply the month/year regex to the 80 characters from
the label position. -/
def profileJoined (bodyText : String) : Option String :=
  let txt := collapseWs bodyText.toList
  match joinedIdx (String.mk txt) with
  | some i => (monthYearGo none ((txt.drop i).take 80)).map String.mk
  | none => none

/-- The bare rating regex `([0-5](?:[.,]\d{1,2})?)` of the profile fallback:
like the host-section one but with no tail, so the greedy group always
succeeds at the first rating digit. -/
def simpleRatingAt : List Char → Option RatCand
  | [] => none
  | c :: rest =>
    if ratingDigit c then
      match rest with
      | s :: d1 :: d2 :: _ =>
        if (s == ',' || s == '.') && d1.isDigit && d2.isDigit then some ⟨c, some s, [d1, d2]⟩
        else if (s == ',' || s == '.') && d1.isDigit then some ⟨c, some s, [d1]⟩
        else some ⟨c, none, []⟩
      | [s, d1] =>
        if (s == ',' || s == '.') && d1.isDigit then some ⟨c, some s, [d1]⟩
        else some ⟨c, none, []⟩
      | _ => some ⟨c, none, []⟩
    else none

def simpleRatingGo : List Char → Option RatCand
  | [] => none
  | c :: t =>
    match simpleRatingAt (c :: t) with
    | some m => some m
    | none => simpleRatingGo t

def extract_from_host_profile (profiles : String → Option ProfilePage)
    (hostUrl : Option String) (curName curRating : Option String) :
    Except Unit ProfileOut :=
  if truthy hostUrl then
    match hostUrl with
    | none => Except.ok ⟨curName, curRating, none⟩
    | some u =>
      match profiles u with
      | none => Except.error ()
      | some pg =>
        let joined := profileJoined pg.bodyText
        let name :=
          if truthy curName then curName
          else
            match pg.headerText with
            | some nm => some (pyTrim nm)
            | none => curName
        let rating :=
          if truthy curRating then curRating
          else
            match pg.ratingAriaLabels.findSome? (fun al => (simpleRatingGo al.toList).map rcJsNorm) with
            | some r => some r
            | none => curRating
        Except.ok ⟨name, rating, joined⟩
  else Except.ok ⟨curName, curRating, none⟩

/-! ### `get_listing_urls` (source lines 302–330)

The search feed is an oracle: `hrefs i` is the list of `href` attributes the
anchor harvest returns on cycle `i`, `height i` the `document.body.scrollHeight`
observed at the end of cycle `i`, and `cycleExtra i` the wall-clock
milliseconds cycle `i` takes beyond the guaranteed 600 ms of
`asyncio.sleep(0.6)`.  `pageUrl` is `page.url` while collecting.

The `urls` set is kept as the insertion-ordered duplicate-free list of its
elements (a Python `set` is used only through `in`, `add` and `len`, which
this list models exactly); `list(urls)` — CPython set-iteration order, which
is hash- and seed-dependent — is modelled as an arbitrary permutation `enum`
of that list, supplied as a parameter. -/

structure Feed where
  pageUrl : String
  hrefs : Nat → List String
  height : Nat → Nat
  cycleExtra : Nat → Nat

/-- The inner `for h in hrefs:` loop of one cycle: skip falsy hrefs and hrefs
without `/rooms/`, canonicalize (`urljoin(page.url, h.split('?')[0])`), add
to the set, and break as soon as the set reaches `max_urls`. -/
def collectCycle (pageUrl : String) (maxUrls : Nat) : List String → List String → List String
  | urls, [] => urls
  | urls, h :: t =>
    if h = "" then collectCycle pageUrl maxUrls urls t
    else if !containsSub "/rooms/" h then collectCycle pageUrl maxUrls urls t
    else
      let u := urljoinModel pageUrl (stripQuery h)
      let urls2 := if u ∈ urls then urls else urls ++ [u]
      if maxUrls ≤ urls2.length then urls2 else collectCycle pageUrl maxUrls urls2 t

/-- The `while len(urls) < max_urls and (time.time()-t0) < MAX_MINUTES*60:`
loop.  `elapsed` is milliseconds since `t0`; each cycle costs at least the
600 ms settle sleep plus `cycleExtra i`.  The loop also breaks when the
scroll height repeats (`height == last_height`).  Returns the final set (as
its insertion-ordered list) and the elapsed time at exit. -/
def collectLoop (f : Feed) (maxUrls budget : Nat) (i : Nat) (urls : List String)
    (elapsed lastH : Nat) : List String × Nat :=
  if h : urls.length < maxUrls ∧ elapsed < budget then
    let urls2 := collectCycle f.pageUrl maxUrls urls (f.hrefs i)
    let elapsed2 := elapsed + 600 + f.cycleExtra i
    if f.height i = lastH then (urls2, elapsed2)
    else collectLoop f maxUrls budget (i + 1) urls2 elapsed2 (f.height i)
  else (urls, elapsed)
termination_by budget - elapsed
decreasing_by
  have := h.2
  omega

/-- Gas-indexed unfolding of the same loop, used to evaluate concrete runs
(`collectLoop_eq_gas` proves it coincides whenever the gas covers the
budget, which `budget / 600 + 1` always does since every cycle costs at
least 600 ms). -/
def collectLoopGas (f : Feed) (maxUrls budget : Nat) :
    Nat → Nat → List String → Nat → Nat → List String × Nat
  | 0, _, urls, elapsed, _ => (urls, elapsed)
  | gas + 1, i, urls, elapsed, lastH =>
    if urls.length < maxUrls ∧ elapsed < budget then
      let urls2 := collectCycle f.pageUrl maxUrls urls (f.hrefs i)
      let elapsed2 := elapsed + 600 + f.cycleExtra i
      if f.height i = lastH then (urls2, elapsed2)
      else collectLoopGas f maxUrls budget gas (i + 1) urls2 elapsed2 (f.height i)
    else (urls, elapsed)

/-- The collected set of one run, in insertion (first-seen) order. -/
def collectedUrls (f : Feed) (maxUrls budget : Nat) : List String :=
  (collectLoop f maxUrls budget 0 [] 0 0).1

/-- The elapsed time at which collection stops. -/
def collectedElapsed (f : Feed) (maxUrls budget : Nat) : Nat :=
  (collectLoop f maxUrls budget 0 [] 0 0).2

/-- Model of `return uniq(list(urls))[:max_urls]` — `enum` is `list(urls)`, the
set-iteration order of the final set. -/
def get_listing_urls (maxUrls : Nat) (enum : List String) : List String :=
  (uniq enum).take maxUrls

/-! ### The per-page body of `run` (source lines 354–401)

A `Visit` is the outcome of processing one reference: `fail` when the
navigation to the listing page raises (the `except` branch of the loop —
only a log line, no record); `ok` carries the observations of the page:
the first `h1` inner text and the document title (`none` where the call
raised; both are wrapped in `try` in the source), the page state, and the
profile-navigation oracle used by the enrichment pass. -/

structure VisitOk where
  page : ListingPage
  h1 : Option String
  docTitle : Option String
  profiles : String → Option ProfilePage

inductive Visit where
  | fail
  | ok (v : VisitOk)

structure ListingRecord where
  url : String
  title : String
  license_code : String
  host_name : String
  host_overall_rating : String
  host_profile_url : String
  host_joined : String
  scraped_at : String
deriving DecidableEq, Repr

/-- One iteration of the `for i, u in enumerate(urls, 1):` loop.  `origin` is
the listing page's origin, `now` the `ts()` timestamp.  Returns `none` when
the iteration raises (listing navigation failed, or the enrichment pass was
entered and the profile navigation raised — `extract_from_host_profile` has
no `except`, so that exception also reaches the loop's handler), `some`
with the assembled record otherwise. -/
def processUrl (origin now u : String) (vis : Visit) : Option ListingRecord :=
  match vis with
  | Visit.fail => none
  | Visit.ok v =>
    let title :=
      match v.h1 with
      | some t => pyTrim t
      | none =>
        match v.docTitle with
        | some t => pyTrim t
        | none => ""
    let hb := extract_host_block origin v.page
    let lic := extract_license_code v.page
    if truthy hb.host_profile_url || !truthy hb.host_overall_rating || !truthy hb.host_name then
      match extract_from_host_profile v.profiles hb.host_profile_url hb.host_name
          hb.host_overall_rating with
      | Except.error _ => none
      | Except.ok en =>
        some { url := u, title := title, license_code := orEmpty lic,
               host_name := orEmpty (pyOr en.host_name hb.host_name),
               host_overall_rating := orEmpty (pyOr en.host_overall_rating hb.host_overall_rating),
               host_profile_url := orEmpty hb.host_profile_url,
               host_joined := orEmpty en.host_joined,
               scraped_at := now }
    else
      some { url := u, title := title, license_code := orEmpty lic,
             host_name := orEmpty hb.host_name,
             host_overall_rating := orEmpty hb.host_overall_rating,
             host_profile_url := orEmpty hb.host_profile_url,
             host_joined := "",
             scraped_at := now }

/-- The `rows` list assembled by `run`: one record appended per iteration
that completes; iterations that raise append nothing. -/
def runRows (origin now : String) (visits : List (String × Visit)) : List ListingRecord :=
  visits.filterMap (fun uv => processUrl origin now uv.1 uv.2)

/-- Property of every canonicalized reference the collection loop can emit:
it came from some cycle's href harvest, was non-empty, contained `/rooms/`,
and was query-stripped and absolutized against the feed page URL. -/
def feedUrlOk (f : Feed) (u : String) : Prop :=
  ∃ i h, h ∈ f.hrefs i ∧ h ≠ "" ∧ containsSub "/rooms/" h = true ∧
    u = urljoinModel f.pageUrl (stripQuery h)

/-- Well-formedness of a captured rating group: leading digit `0`–`5`, only
digit characters in the fraction, at most two of them, and a fraction only
in the presence of a separator. -/
def rcWf (rc : RatCand) : Prop :=
  ratingDigit rc.whole = true ∧ rc.frac.all Char.isDigit = true ∧
    rc.frac.length ≤ 2 ∧ (rc.sep = none → rc.frac = [])

/-! ### Fixtures -/

/-- Feed exposing one anchor whose href carries a fragment. -/
def fragFeed : Feed :=
  ⟨"https://www.airbnb.com/s/Dubai/homes",
   fun _ => ["/rooms/123#photos"], fun _ => 0, fun _ => 0⟩

/-- Feed exposing two distinct detail anchors in one cycle. -/
def twoFeed : Feed :=
  ⟨"https://www.airbnb.com/s/Dubai/homes",
   fun _ => ["/rooms/a", "/rooms/b"], fun _ => 0, fun _ => 0⟩

/-- Feed that never stagnates (height always grows) and never yields any
reference. -/
def endlessFeed : Feed :=
  ⟨"https://www.airbnb.com/s/Dubai/homes",
   fun _ => [], fun i => i + 1, fun _ => 0⟩

/-- Listing page whose host section displays the rating `2.1/5`. -/
def page21 : ListingPage :=
  ⟨[⟨"/users/show/1", "Sam", "", "",
     ["x", "x", "x", "x", "Meet your host", "Hosted by Sam • 2.1/5"], []⟩],
   "", [], [], []⟩

/-- Listing page whose host section displays `4,87 / 5` (decimal comma). -/
def page487 : ListingPage :=
  ⟨[⟨"/users/show/2", "Ana", "", "",
     ["y", "y", "y", "y", "Rencontrez votre hôte", "Hôte : Ana • Note : 4,87 / 5"], []⟩],
   "", [], [], []⟩

/-- Listing page whose host section displays `4,90 / 5`. -/
def page490 : ListingPage :=
  ⟨[⟨"/users/show/3", "Lee", "", "",
     ["z", "z", "z", "z", "Meet your host", "Hosted by Lee • 4,90 / 5"], []⟩],
   "", [], [], []⟩

/-- A reviewer's profile anchor: every region enclosing it contains the
reviews heading, and no host keyword appears anywhere near it. -/
def revAnchor : HostAnchor :=
  ⟨"/users/show/999", "Alice Reviewer", "", "",
   ["Reviews — Alice Reviewer stayed here", "All Reviews", "All Reviews",
    "All Reviews", "All Reviews", "Reviews section of the page"], []⟩

/-- Listing page whose only profile anchor is the reviewer's. -/
def pageRev : ListingPage := ⟨[revAnchor], "page body", [], [], []⟩

/-- License label and code in the same element text. -/
def pageLicSame : ListingPage :=
  ⟨[], "", [], [⟨"Registration number: ABC-DEF-1234", [], []⟩], []⟩

/-- License label with the code on the next non-empty sibling. -/
def pageLicSib : ListingPage :=
  ⟨[], "", [], [⟨"Registration number:", ["", "ABC-DEF-1234"], []⟩], []⟩

/-- Page with no license label and no code-shaped token anywhere. -/
def pageLicNone : ListingPage := ⟨[], "", [], [], []⟩

/-- Visit of `pageLicNone` on which every observation is empty. -/
def visitLicNone : VisitOk := ⟨pageLicNone, none, none, fun _ => none⟩

/-- Page embedding a structured JSON payload with one license value while the
visible text carries a different, label-adjacent numeric string. -/
def pageStructured : ListingPage :=
  ⟨[], "License: 9999999", [],
   [⟨"License: 9999999", [], []⟩],
   ["\x7b\"license\":\"1100042\"\x7d"]⟩

/-- Profile-page oracle used by the enrichment witness. -/
def profOracle : String → Option ProfilePage :=
  fun _ => some ⟨"profile body", some "Carol", ["4,9 sur 5"]⟩

end Scrape

namespace Scrape

/-! ## Supporting lemmas -/

theorem uniqAux_eq_firstSeen {α : Type} [DecidableEq α] (xs : List α) :
    ∀ seen : List α,
      uniqAux seen xs = firstSeenSpec (xs.filter (fun y => decide (y ∉ seen))) := by
  induction xs with
  | nil => intro seen; simp [uniqAux, firstSeenSpec]
  | cons x xs ih =>
    intro seen
    by_cases hx : x ∈ seen
    · have hp : decide (x ∉ seen) = false := by simp [hx]
      rw [uniqAux, if_pos hx, ih, List.filter_cons, hp]
      simp
    · have hp : decide (x ∉ seen) = true := by simp [hx]
      rw [uniqAux, if_neg hx, List.filter_cons, hp, if_pos rfl, ih (x :: seen),
        firstSeenSpec.eq_2]
      congr 1
      rw [List.filter_filter]
      congr 1
      apply List.filter_congr
      intro a _
      by_cases hax : a = x
      · subst hax; simp
      · by_cases has : a ∈ seen <;> simp [hax, has]

theorem uniq_eq_firstSeen {α : Type} [DecidableEq α] (xs : List α) :
    uniq xs = firstSeenSpec xs := by
  rw [uniq, uniqAux_eq_firstSeen xs []]
  congr 1
  apply List.filter_eq_self.mpr
  intro a _
  simp

theorem mem_uniqAux {α : Type} [DecidableEq α] (xs : List α) :
    ∀ (seen : List α) (a : α), a ∈ uniqAux seen xs ↔ a ∈ xs ∧ a ∉ seen := by
  induction xs with
  | nil => intro seen a; simp [uniqAux]
  | cons x xs ih =>
    intro seen a
    by_cases hx : x ∈ seen
    · rw [uniqAux, if_pos hx, ih]
      constructor
      · rintro ⟨h1, h2⟩; exact ⟨List.mem_cons_of_mem _ h1, h2⟩
      · rintro ⟨h1, h2⟩
        rcases List.mem_cons.mp h1 with h | h
        · subst h; exact absurd hx h2
        · exact ⟨h, h2⟩
    · rw [uniqAux, if_neg hx]
      simp only [List.mem_cons, ih (x :: seen) a, List.mem_cons]
      constructor
      · rintro (h | ⟨h1, h2⟩)
        · subst h; exact ⟨Or.inl rfl, hx⟩
        · exact ⟨Or.inr h1, fun hs => h2 (Or.inr hs)⟩
      · rintro ⟨h1 | h1, h2⟩
        · exact Or.inl h1
        · by_cases hax : a = x
          · exact Or.inl hax
          · exact Or.inr ⟨h1, fun hs => hs.elim hax h2⟩

theorem uniqAux_nodup {α : Type} [DecidableEq α] (xs : List α) :
    ∀ seen : List α, (uniqAux seen xs).Nodup := by
  induction xs with
  | nil => intro seen; simp [uniqAux]
  | cons x xs ih =>
    intro seen
    by_cases hx : x ∈ seen
    · rw [uniqAux, if_pos hx]; exact ih seen
    · rw [uniqAux, if_neg hx]
      refine List.nodup_cons.mpr ⟨?_, ih (x :: seen)⟩
      intro hmem
      exact ((mem_uniqAux xs (x :: seen) x).mp hmem).2 (List.mem_cons_self x seen)

theorem uniqAux_sublist {α : Type} [DecidableEq α] (xs : List α) :
    ∀ seen : List α, (uniqAux seen xs).Sublist xs := by
  induction xs with
  | nil => intro seen; simp [uniqAux]
  | cons x xs ih =>
    intro seen
    by_cases hx : x ∈ seen
    · rw [uniqAux, if_pos hx]; exact (ih seen).cons x
    · rw [uniqAux, if_neg hx]; exact (ih (x :: seen)).cons₂ x

theorem uniqAux_of_nodup {α : Type} [DecidableEq α] (xs : List α) :
    ∀ seen : List α, xs.Nodup → (∀ a ∈ xs, a ∉ seen) → uniqAux seen xs = xs := by
  induction xs with
  | nil => intro seen _ _; rfl
  | cons x xs ih =>
    intro seen hnd hdisj
    have hx : x ∉ seen := hdisj x (List.mem_cons_self x xs)
    rw [uniqAux, if_neg hx]
    congr 1
    refine ih (x :: seen) (List.nodup_cons.mp hnd).2 ?_
    intro a ha
    intro hmem
    rcases List.mem_cons.mp hmem with h | h
    · subst h; exact (List.nodup_cons.mp hnd).1 ha
    · exact hdisj a (List.mem_cons_of_mem _ ha) h

theorem uniq_nodup {α : Type} [DecidableEq α] (xs : List α) : (uniq xs).Nodup :=
  uniqAux_nodup xs []

theorem uniq_eq_self_of_nodup {α : Type} [DecidableEq α] (xs : List α)
    (h : xs.Nodup) : uniq xs = xs :=
  uniqAux_of_nodup xs [] h (by intro a _ hmem; exact (List.not_mem_nil a) hmem)

theorem mem_uniq {α : Type} [DecidableEq α] (xs : List α) (a : α) :
    a ∈ uniq xs ↔ a ∈ xs := by
  rw [uniq, mem_uniqAux]
  simp

theorem collectLoop_eq_gas (f : Feed) (maxUrls budget : Nat) :
    ∀ (gas i : Nat) (urls : List String) (elapsed lastH : Nat),
      budget ≤ elapsed + 600 * gas →
      collectLoop f maxUrls budget i urls elapsed lastH =
        collectLoopGas f maxUrls budget gas i urls elapsed lastH := by
  intro gas
  induction gas with
  | zero =>
    intro i urls elapsed lastH hb
    rw [collectLoop, collectLoopGas]
    rw [dif_neg]
    rintro ⟨_, h2⟩
    omega
  | succ gas ih =>
    intro i urls elapsed lastH hb
    rw [collectLoop, collectLoopGas]
    by_cases hc : urls.length < maxUrls ∧ elapsed < budget
    · rw [dif_pos hc, if_pos hc]
      by_cases hh : f.height i = lastH
      · rw [if_pos hh, if_pos hh]
      · rw [if_neg hh, if_neg hh]
        apply ih
        omega
    · rw [dif_neg hc, if_neg hc]

theorem collectedUrls_eval (f : Feed) (maxUrls budget : Nat) :
    collectedUrls f maxUrls budget =
      (collectLoopGas f maxUrls budget (budget / 600 + 1) 0 [] 0 0).1 := by
  unfold collectedUrls
  rw [collectLoop_eq_gas]
  omega

theorem collectCycle_mem (pageUrl : String) (maxUrls : Nat) :
    ∀ (hrefs urls : List String) (u : String),
      u ∈ collectCycle pageUrl maxUrls urls hrefs →
      u ∈ urls ∨ ∃ h, h ∈ hrefs ∧ h ≠ "" ∧ containsSub "/rooms/" h = true ∧
        u = urljoinModel pageUrl (stripQuery h) := by
  intro hrefs
  induction hrefs with
  | nil =>
    intro urls u hu
    simp only [collectCycle] at hu
    exact Or.inl hu
  | cons h t ih =>
    intro urls u hu
    simp only [collectCycle] at hu
    have step : ∀ urls2 : List String, u ∈ collectCycle pageUrl maxUrls urls2 t →
        u ∈ urls2 ∨ ∃ g, g ∈ h :: t ∧ g ≠ "" ∧ containsSub "/rooms/" g = true ∧
          u = urljoinModel pageUrl (stripQuery g) := by
      intro urls2 hu2
      rcases ih urls2 u hu2 with h1 | ⟨g, hg1, hg2, hg3, hg4⟩
      · exact Or.inl h1
      · exact Or.inr ⟨g, List.mem_cons_of_mem _ hg1, hg2, hg3, hg4⟩
    by_cases h0 : h = ""
    · rw [if_pos h0] at hu; exact step urls hu
    · rw [if_neg h0] at hu
      by_cases h1 : containsSub "/rooms/" h = true
      · rw [if_neg (by simp [h1])] at hu
        by_cases hin : urljoinModel pageUrl (stripQuery h) ∈ urls
        · rw [if_pos hin] at hu
          by_cases hbr : maxUrls ≤ urls.length
          · rw [if_pos hbr] at hu; exact Or.inl hu
          · rw [if_neg hbr] at hu; exact step urls hu
        · rw [if_neg hin] at hu
          by_cases hbr : maxUrls ≤ (urls ++ [urljoinModel pageUrl (stripQuery h)]).length
          · rw [if_pos hbr] at hu
            rcases List.mem_append.mp hu with h3 | h3
            · exact Or.inl h3
            · exact Or.inr ⟨h, List.mem_cons_self h t, h0, h1, List.mem_singleton.mp h3⟩
          · rw [if_neg hbr] at hu
            rcases step _ hu with h3 | h3
            · rcases List.mem_append.mp h3 with h4 | h4
              · exact Or.inl h4
              · exact Or.inr ⟨h, List.mem_cons_self h t, h0, h1, List.mem_singleton.mp h4⟩
            · exact Or.inr h3
      · rw [if_pos (by simp [h1])] at hu; exact step urls hu

theorem collectCycle_nodup (pageUrl : String) (maxUrls : Nat) :
    ∀ (hrefs urls : List String), urls.Nodup →
      (collectCycle pageUrl maxUrls urls hrefs).Nodup := by
  intro hrefs
  induction hrefs with
  | nil =>
    intro urls hnd
    simpa only [collectCycle] using hnd
  | cons h t ih =>
    intro urls hnd
    simp only [collectCycle]
    split_ifs with h0 h1 hin hbr hbr2
    · exact ih urls hnd
    · exact ih urls hnd
    · exact hnd
    · exact ih urls hnd
    · exact List.nodup_append.mpr ⟨hnd, List.nodup_singleton _,
        fun a ha hb => hin (List.mem_singleton.mp hb ▸ ha)⟩
    · exact ih _ (List.nodup_append.mpr ⟨hnd, List.nodup_singleton _,
        fun a ha hb => hin (List.mem_singleton.mp hb ▸ ha)⟩)

theorem collectCycle_length (pageUrl : String) (maxUrls : Nat) :
    ∀ (hrefs urls : List String), urls.length < maxUrls →
      (collectCycle pageUrl maxUrls urls hrefs).length ≤ maxUrls := by
  intro hrefs
  induction hrefs with
  | nil =>
    intro urls hlen
    simp only [collectCycle]
    omega
  | cons h t ih =>
    intro urls hlen
    simp only [collectCycle]
    split_ifs with h0 h1 hin hbr hbr2
    · exact ih urls hlen
    · exact ih urls hlen
    · omega
    · exact ih urls hlen
    · simp only [List.length_append, List.length_singleton]
      omega
    · refine ih _ ?_
      simp only [List.length_append, List.length_singleton] at hbr2 ⊢
      omega

theorem collectLoopGas_mem (f : Feed) (maxUrls budget : Nat) :
    ∀ (gas i : Nat) (urls : List String) (elapsed lastH : Nat) (u : String),
      (∀ w ∈ urls, feedUrlOk f w) →
      u ∈ (collectLoopGas f maxUrls budget gas i urls elapsed lastH).1 →
      feedUrlOk f u := by
  intro gas
  induction gas with
  | zero =>
    intro i urls elapsed lastH u hinv hu
    exact hinv u hu
  | succ gas ih =>
    intro i urls elapsed lastH u hinv hu
    rw [collectLoopGas] at hu
    have hinv2 : ∀ w ∈ collectCycle f.pageUrl maxUrls urls (f.hrefs i), feedUrlOk f w := by
      intro w hw
      rcases collectCycle_mem f.pageUrl maxUrls (f.hrefs i) urls w hw with h1 | ⟨g, hg1, hg2, hg3, hg4⟩
      · exact hinv w h1
      · exact ⟨i, g, hg1, hg2, hg3, hg4⟩
    split_ifs at hu with hc hh
    · exact hinv2 u hu
    · exact ih (i + 1) _ _ _ u hinv2 hu
    · exact hinv u hu

theorem collectLoopGas_nodup (f : Feed) (maxUrls budget : Nat) :
    ∀ (gas i : Nat) (urls : List String) (elapsed lastH : Nat), urls.Nodup →
      (collectLoopGas f maxUrls budget gas i urls elapsed lastH).1.Nodup := by
  intro gas
  induction gas with
  | zero => intro i urls elapsed lastH hnd; exact hnd
  | succ gas ih =>
    intro i urls elapsed lastH hnd
    rw [collectLoopGas]
    split_ifs with hc hh
    · exact collectCycle_nodup f.pageUrl maxUrls (f.hrefs i) urls hnd
    · exact ih (i + 1) _ _ _ (collectCycle_nodup f.pageUrl maxUrls (f.hrefs i) urls hnd)
    · exact hnd

theorem collectLoopGas_length (f : Feed) (maxUrls budget : Nat) :
    ∀ (gas i : Nat) (urls : List String) (elapsed lastH : Nat), urls.length ≤ maxUrls →
      (collectLoopGas f maxUrls budget gas i urls elapsed lastH).1.length ≤ maxUrls := by
  intro gas
  induction gas with
  | zero => intro i urls elapsed lastH hl; exact hl
  | succ gas ih =>
    intro i urls elapsed lastH hl
    rw [collectLoopGas]
    split_ifs with hc hh
    · exact collectCycle_length f.pageUrl maxUrls (f.hrefs i) urls hc.1
    · exact ih (i + 1) _ _ _ (collectCycle_length f.pageUrl maxUrls (f.hrefs i) urls hc.1)
    · exact hl

theorem collectedUrls_mem (f : Feed) (maxUrls budget : Nat) (u : String)
    (hu : u ∈ collectedUrls f maxUrls budget) : feedUrlOk f u := by
  rw [collectedUrls, collectLoop_eq_gas f maxUrls budget budget 0 [] 0 0 (by nlinarith)] at hu
  exact collectLoopGas_mem f maxUrls budget budget 0 [] 0 0 u
    (by intro w hw; exact absurd hw (List.not_mem_nil w)) hu

theorem collectedUrls_nodup (f : Feed) (maxUrls budget : Nat) :
    (collectedUrls f maxUrls budget).Nodup := by
  rw [collectedUrls, collectLoop_eq_gas f maxUrls budget budget 0 [] 0 0 (by nlinarith)]
  exact collectLoopGas_nodup f maxUrls budget budget 0 [] 0 0 List.nodup_nil

theorem collectedUrls_length (f : Feed) (maxUrls budget : Nat) :
    (collectedUrls f maxUrls budget).length ≤ maxUrls := by
  rw [collectedUrls, collectLoop_eq_gas f maxUrls budget budget 0 [] 0 0 (by nlinarith)]
  exact collectLoopGas_length f maxUrls budget budget 0 [] 0 0 (by simp)

theorem collectLoopGas_time (f : Feed) (maxUrls budget B : Nat)
    (hB : ∀ j, 600 + f.cycleExtra j ≤ B) :
    ∀ (gas i : Nat) (urls : List String) (elapsed lastH : Nat),
      (collectLoopGas f maxUrls budget gas i urls elapsed lastH).2 ≤
        max elapsed (budget + B) := by
  intro gas
  induction gas with
  | zero => intro i urls elapsed lastH; exact Nat.le_max_left _ _
  | succ gas ih =>
    intro i urls elapsed lastH
    rw [collectLoopGas]
    dsimp only
    split_ifs with hc hh
    · have := hB i
      have := hc.2
      refine le_trans ?_ (Nat.le_max_right _ _)
      omega
    · refine le_trans (ih (i + 1) _ _ _) ?_
      have h1 : elapsed + 600 + f.cycleExtra i ≤ budget + B := by
        have := hB i
        have := hc.2
        omega
      have h2 : max (elapsed + 600 + f.cycleExtra i) (budget + B) = budget + B :=
        Nat.max_eq_right h1
      rw [h2]
      exact Nat.le_max_right _ _
    · exact Nat.le_max_left _ _

theorem ratingDigit_toNat (c : Char) (h : ratingDigit c = true) :
    48 ≤ c.toNat ∧ c.toNat ≤ 53 := by
  simp only [ratingDigit, Bool.and_eq_true, decide_eq_true_eq] at h
  obtain ⟨h1, h2⟩ := h
  have g1 : ('0').val ≤ c.val := h1
  have g2 : c.val ≤ ('5').val := h2
  exact ⟨g1, g2⟩

theorem isDigit_toNat (c : Char) (h : c.isDigit = true) :
    48 ≤ c.toNat ∧ c.toNat ≤ 57 := by
  simp only [Char.isDigit, Bool.and_eq_true, decide_eq_true_eq] at h
  obtain ⟨h1, h2⟩ := h
  have g1 : ('0').val ≤ c.val := h1
  have g2 : c.val ≤ ('9').val := h2
  exact ⟨g1, g2⟩

theorem ratingDigit_ne (c : Char) (h : ratingDigit c = true) : c ≠ ',' ∧ c ≠ '.' := by
  constructor
  · intro he; subst he; exact absurd h (by decide)
  · intro he; subst he; exact absurd h (by decide)

theorem isDigit_ne (c : Char) (h : c.isDigit = true) : c ≠ ',' ∧ c ≠ '.' := by
  constructor
  · intro he; subst he; exact absurd h (by decide)
  · intro he; subst he; exact absurd h (by decide)

theorem ratingAt_wf : ∀ (cs : List Char) (rc : RatCand), ratingAt cs = some rc → rcWf rc := by
  intro cs rc h
  rcases cs with _ | ⟨c, _ | ⟨s, _ | ⟨d1, _ | ⟨d2, r2⟩⟩⟩⟩
  · exact Option.noConfusion h
  all_goals simp only [ratingAt] at h
  all_goals split_ifs at h with h1 h2 h3 <;>
    first
      | exact Option.noConfusion h
      | (injection h with hX; subst hX;
         refine ⟨by assumption, ?_, by simp, by intro hnone; simp_all⟩ <;>
           simp_all [List.all_cons])

theorem ratingGo_wf : ∀ (cs : List Char) (rc : RatCand), ratingGo cs = some rc → rcWf rc := by
  intro cs
  induction cs with
  | nil => intro rc h; exact Option.noConfusion h
  | cons c t ih =>
    intro rc h
    rw [ratingGo] at h
    cases hA : ratingAt (c :: t) with
    | some m =>
      simp only [hA, Option.some.injEq] at h
      exact h ▸ ratingAt_wf (c :: t) m hA
    | none =>
      simp only [hA] at h
      exact ih rc h

theorem simpleRatingAt_wf : ∀ (cs : List Char) (rc : RatCand),
    simpleRatingAt cs = some rc → rcWf rc := by
  intro cs rc h
  rcases cs with _ | ⟨c, _ | ⟨s, _ | ⟨d1, _ | ⟨d2, r2⟩⟩⟩⟩
  · exact Option.noConfusion h
  all_goals simp only [simpleRatingAt] at h
  all_goals split_ifs at h with h1 h2 h3 <;>
    first
      | exact Option.noConfusion h
      | (injection h with hX; subst hX;
         refine ⟨by assumption, ?_, by simp, by intro hnone; simp_all⟩ <;>
           simp_all [List.all_cons])

theorem stripZeros_mem (l : List Char) (x : Char) (hx : x ∈ stripZeros l) : x ∈ l := by
  unfold stripZeros at hx
  rw [List.mem_reverse] at hx
  have := (List.dropWhile_sublist (l := l.reverse) (p := fun c => c == '0')).mem hx
  exact List.mem_reverse.mp this

theorem stripZeros_length (l : List Char) : (stripZeros l).length ≤ l.length := by
  unfold stripZeros
  rw [List.length_reverse]
  calc (l.reverse.dropWhile (fun c => c == '0')).length
      ≤ l.reverse.length := (List.dropWhile_sublist _).length_le
    _ = l.length := List.length_reverse l

theorem pyRound2L_cons (c : Char) (hc : (c != '.') = true) (frac : List Char) :
    pyRound2L (c :: '.' :: frac) =
      if (stripZeros frac).isEmpty then [c, '.', '0']
      else c :: '.' :: stripZeros frac := by
  unfold pyRound2L
  simp [List.takeWhile_cons, List.dropWhile_cons, hc]

theorem pyRound2L_single (c : Char) (hc : (c != '.') = true) :
    pyRound2L [c] = [c, '.', '0'] := by
  unfold pyRound2L
  simp [List.takeWhile_cons, List.dropWhile_cons, hc, stripZeros]

/-- Parsed value and shape of any string of the form `c.fs` with `c` a rating
digit and `fs` a non-empty all-digit fraction of at most two places. -/
theorem ratStrVal_bound (c : Char) (fs : List Char) (hc : ratingDigit c = true)
    (hfs : fs ≠ []) (hfall : fs.all Char.isDigit = true) (hflen : fs.length ≤ 2) :
    ',' ∉ (c :: '.' :: fs) ∧ '.' ∈ (c :: '.' :: fs) ∧
    ∃ q : ℚ, ratStrVal (String.mk (c :: '.' :: fs)) = some q ∧ 0 ≤ q ∧ q < 6 := by
  have hcnat := ratingDigit_toNat c hc
  have hcd : c.isDigit = true := by
    simp only [Char.isDigit, Bool.and_eq_true, decide_eq_true_eq]
    constructor
    · show ('0').val ≤ c.val
      exact hcnat.1
    · show c.val ≤ ('9').val
      exact le_trans hcnat.2 (by decide)
  refine ⟨?_, ?_, ?_⟩
  · intro hmem
    rcases List.mem_cons.mp hmem with h1 | h1
    · exact (ratingDigit_ne c hc).1 h1.symm
    rcases List.mem_cons.mp h1 with h2 | h2
    · exact absurd h2 (by decide)
    · exact (isDigit_ne ',' (List.all_eq_true.mp hfall ',' h2)).1 rfl
  · exact List.mem_cons_of_mem _ (List.mem_cons_self '.' fs)
  · have hred : ratStrVal (String.mk (c :: '.' :: fs)) =
        if c.isDigit = true then
          if fs ≠ [] ∧ fs.all Char.isDigit = true then
            some (((c.toNat - 48 : ℕ) : ℚ) +
              ((Nat.ofDigits 10 ((fs.map (fun x => x.toNat - 48)).reverse) : ℕ) : ℚ) /
                ((10 : ℚ) ^ fs.length)) else none
        else none := rfl
    rw [hred, if_pos hcd, if_pos ⟨hfs, hfall⟩]
    refine ⟨_, rfl, ?_, ?_⟩
    · positivity
    · have hint : ((c.toNat - 48 : ℕ) : ℚ) ≤ 5 := by
        have : c.toNat - 48 ≤ 5 := by omega
        exact_mod_cast this
      have hfrac : ((Nat.ofDigits 10 ((fs.map (fun x => x.toNat - 48)).reverse) : ℕ) : ℚ) /
          ((10 : ℚ) ^ fs.length) < 1 := by
        rw [div_lt_one (by positivity)]
        have hn : Nat.ofDigits 10 ((fs.map (fun x => x.toNat - 48)).reverse) <
            10 ^ fs.length := by
          rcases fs with _ | ⟨a, _ | ⟨b, _ | _⟩⟩
          · exact absurd rfl hfs
          · have ha := isDigit_toNat a (List.all_eq_true.mp hfall a (by simp))
            simp [Nat.ofDigits]
            omega
          · have ha := isDigit_toNat a (List.all_eq_true.mp hfall a (by simp))
            have hb := isDigit_toNat b (List.all_eq_true.mp hfall b (by simp))
            simp [Nat.ofDigits]
            omega
          · simp at hflen
        calc ((Nat.ofDigits 10 ((fs.map (fun x => x.toNat - 48)).reverse) : ℕ) : ℚ)
            < ((10 ^ fs.length : ℕ) : ℚ) := by exact_mod_cast hn
          _ = (10 : ℚ) ^ fs.length := by push_cast; ring
      linarith

/-- Result shape of the Python-side rating normalization on any well-formed
captured group: point decimal, value in `[0, 6)`. -/
theorem pyRound2Str_wf (rc : RatCand) (hwf : rcWf rc) :
    ',' ∉ (pyRound2Str (rcJsNorm rc)).toList ∧
    '.' ∈ (pyRound2Str (rcJsNorm rc)).toList ∧
    ∃ q : ℚ, ratStrVal (pyRound2Str (rcJsNorm rc)) = some q ∧ 0 ≤ q ∧ q < 6 := by
  obtain ⟨hdig, hall, hlen, hnone⟩ := hwf
  obtain ⟨c, sep, frac⟩ := rc
  have hne : (c != '.') = true := by
    have := (ratingDigit_ne c hdig).2
    simp [bne_iff_ne, this]
  have htl : ∀ l : List Char, (String.mk l).toList = l := fun _ => rfl
  cases sep with
  | none =>
    have hfr : frac = [] := hnone rfl
    subst hfr
    have hcomp : pyRound2Str (rcJsNorm ⟨c, none, []⟩) = String.mk [c, '.', '0'] := by
      show String.mk (pyRound2L (String.mk [c]).toList) = _
      rw [htl, pyRound2L_single c hne]
    rw [hcomp]
    simp only [htl]
    exact ratStrVal_bound c ['0'] hdig (by simp) (by decide) (by simp)
  | some s =>
    have hcomp : pyRound2Str (rcJsNorm ⟨c, some s, frac⟩) =
        String.mk (pyRound2L (c :: '.' :: frac)) := by
      show String.mk (pyRound2L (String.mk (c :: '.' :: frac)).toList) = _
      rw [htl]
    rw [hcomp, pyRound2L_cons c hne frac]
    by_cases h0 : (stripZeros frac).isEmpty
    · rw [if_pos h0]
      simp only [htl]
      exact ratStrVal_bound c ['0'] hdig (by simp) (by decide) (by simp)
    · rw [if_neg h0]
      simp only [htl]
      refine ratStrVal_bound c (stripZeros frac) hdig ?_ ?_ ?_
      · intro he
        exact h0 (by rw [he]; rfl)
      · rw [List.all_eq_true]
        intro x hx
        exact List.all_eq_true.mp hall x (stripZeros_mem frac x hx)
      · exact le_trans (stripZeros_length frac) (by simpa using hlen)

theorem length_filterMap_eq {α β : Type} (f : α → Option β) (l : List α) :
    (l.filterMap f).length = (l.filter (fun x => (f x).isSome)).length := by
  induction l with
  | nil => rfl
  | cons x t ih =>
    cases hf : f x with
    | none => simp [List.filterMap_cons, List.filter_cons, hf, ih]
    | some b => simp [List.filterMap_cons, List.filter_cons, hf, ih]

/-- Every non-`None` rating leaving `extract_host_block` is the Python
normalization of some captured well-formed rating group. -/
theorem extract_host_block_rating (origin : String) (p : ListingPage) (s : String)
    (h : (extract_host_block origin p).host_overall_rating = some s) :
    ∃ rc : RatCand, rcWf rc ∧ s = pyRound2Str (rcJsNorm rc) := by
  unfold extract_host_block at h
  cases hch : chooseHostAnchor p with
  | none =>
    rw [hch] at h
    exact Option.noConfusion h
  | some a =>
    rw [hch] at h
    dsimp only at h
    cases hfs : (anchorSectionAria p a).findSome?
        (fun al => (ratingGo al.toList).map rcJsNorm) with
    | some r =>
      simp only [hfs, Option.map_some', Option.some.injEq] at h
      obtain ⟨l₁, al, l₂, _, hal, _⟩ := List.findSome?_eq_some_iff.mp hfs
      obtain ⟨rc, hrc, hr⟩ := Option.map_eq_some'.mp hal
      exact ⟨rc, ratingGo_wf al.toList rc hrc, by rw [← h, ← hr]⟩
    | none =>
      simp only [hfs] at h
      obtain ⟨r, hr1, hr2⟩ := Option.map_eq_some'.mp h
      obtain ⟨rc, hrc, hr⟩ := Option.map_eq_some'.mp hr1
      exact ⟨rc, ratingGo_wf _ rc hrc, by rw [← hr2, ← hr]⟩

end Scrape

namespace Scrape

/-! ## Claims -/

/-- C1 (counterexample): a run over one reference whose navigation fails
emits zero records, not one — the `except` branch only logs and skips the
append, so a failed page yields no empty-field record. -/
theorem c1_counterexample :
    runRows "https://www.airbnb.com" "2026-02-03T00:00:00+00:00"
        [("https://www.airbnb.com/rooms/1", Visit.fail)] = [] ∧
    [("https://www.airbnb.com/rooms/1", Visit.fail)].length = 1 :=
  ⟨rfl, rfl⟩

/-- C1 (amended): the run emits exactly one record per reference whose
iteration completes without raising; an iteration that raises (failed
navigation, or a raising profile visit) emits nothing, so the number of
emitted records equals the number of successfully processed references and
is at most the number attempted. -/
theorem c1_records_only_successes (origin now : String) (visits : List (String × Visit)) :
    (runRows origin now visits).length =
      (visits.filter (fun uv => (processUrl origin now uv.1 uv.2).isSome)).length ∧
    (runRows origin now visits).length ≤ visits.length ∧
    ∀ uv ∈ visits, uv.2 = Visit.fail → processUrl origin now uv.1 uv.2 = none := by
  refine ⟨length_filterMap_eq _ visits, ?_, ?_⟩
  · exact le_trans (le_of_eq (length_filterMap_eq _ visits)) (List.length_filter_le _ _)
  · intro uv _ hf
    rw [hf]
    rfl

/-- C1 witness: the amended theorem applied to a singleton failed visit. -/
theorem c1_witness :
    processUrl "https://www.airbnb.com" "2026-02-03T00:00:00+00:00"
      "https://www.airbnb.com/rooms/1" Visit.fail = none :=
  (c1_records_only_successes "https://www.airbnb.com" "2026-02-03T00:00:00+00:00"
      [("https://www.airbnb.com/rooms/1", Visit.fail)]).2.2
    ("https://www.airbnb.com/rooms/1", Visit.fail) (by simp) rfl

/-- C2 (counterexample): the canonicalization strips the query but not the
fragment: an href `/rooms/123#photos` is returned with its `#photos`
fragment intact, against the claim that fragments are stripped. -/
theorem c2_counterexample :
    collectedUrls fragFeed 10 60000 = ["https://www.airbnb.com/rooms/123#photos"] ∧
    get_listing_urls 10 ["https://www.airbnb.com/rooms/123#photos"] =
      ["https://www.airbnb.com/rooms/123#photos"] ∧
    '#' ∈ ("https://www.airbnb.com/rooms/123#photos").toList := by
  refine ⟨?_, by decide, by decide⟩
  rw [collectedUrls_eval]
  decide

/-- C2 (amended): for every feed and every set-enumeration order, the
returned references number at most `max_count`, are pairwise distinct, and
each one is an absolute URL obtained from some harvested href containing
`/rooms/` by dropping the query string (fragments are kept) and joining
against the feed page URL. -/
theorem c2_frontier_bounded_unique (f : Feed) (maxUrls budget : Nat) (enum : List String)
    (hperm : enum.Perm (collectedUrls f maxUrls budget)) :
    (get_listing_urls maxUrls enum).length ≤ maxUrls ∧
    (get_listing_urls maxUrls enum).Nodup ∧
    ∀ u ∈ get_listing_urls maxUrls enum, feedUrlOk f u := by
  refine ⟨?_, ?_, ?_⟩
  · rw [get_listing_urls, List.length_take]
    exact min_le_left _ _
  · exact ((List.take_sublist _ _).nodup (uniq_nodup enum))
  · intro u hu
    have h1 : u ∈ uniq enum := (List.take_sublist _ _).subset hu
    have h2 : u ∈ enum := (mem_uniq enum u).mp h1
    exact collectedUrls_mem f maxUrls budget u (hperm.mem_iff.mp h2)

/-- C2 witness: the amended theorem applied to the fragment feed with the
identity enumeration. -/
theorem c2_witness :
    (get_listing_urls 10 (collectedUrls fragFeed 10 60000)).length ≤ 10 ∧
    (get_listing_urls 10 (collectedUrls fragFeed 10 60000)).Nodup ∧
    ∀ u ∈ get_listing_urls 10 (collectedUrls fragFeed 10 60000), feedUrlOk fragFeed u :=
  c2_frontier_bounded_unique fragFeed 10 60000 (collectedUrls fragFeed 10 60000)
    (List.Perm.refl _)

/-- C3 (counterexample): the collected set is first-seen ordered internally,
but the function returns `uniq(list(urls))[:max]` where `list(urls)` is the
CPython set-enumeration order; the reversed enumeration is a legal
enumeration of the same set and produces the references out of first-seen
order. -/
theorem c3_counterexample :
    collectedUrls twoFeed 10 60000 =
      ["https://www.airbnb.com/rooms/a", "https://www.airbnb.com/rooms/b"] ∧
    List.Perm ["https://www.airbnb.com/rooms/b", "https://www.airbnb.com/rooms/a"]
      (collectedUrls twoFeed 10 60000) ∧
    get_listing_urls 10 ["https://www.airbnb.com/rooms/b", "https://www.airbnb.com/rooms/a"] =
      ["https://www.airbnb.com/rooms/b", "https://www.airbnb.com/rooms/a"] ∧
    ["https://www.airbnb.com/rooms/b", "https://www.airbnb.com/rooms/a"] ≠
      ["https://www.airbnb.com/rooms/a", "https://www.airbnb.com/rooms/b"] := by
  have hc : collectedUrls twoFeed 10 60000 =
      ["https://www.airbnb.com/rooms/a", "https://www.airbnb.com/rooms/b"] := by
    rw [collectedUrls_eval]
    decide
  refine ⟨hc, ?_, by decide, by decide⟩
  rw [hc]
  decide

/-- C3 (amended): the returned list is a permutation of the first-seen
distinct references (the internally collected, insertion-ordered set,
truncated by the break at `max_count`); the enumeration order of the Python
set, not discovery order, decides the position of each element. -/
theorem c3_output_permutes_first_seen (f : Feed) (maxUrls budget : Nat) (enum : List String)
    (hperm : enum.Perm (collectedUrls f maxUrls budget)) :
    (get_listing_urls maxUrls enum).Perm (collectedUrls f maxUrls budget) := by
  have hnd : enum.Nodup := hperm.nodup_iff.mpr (collectedUrls_nodup f maxUrls budget)
  have hlen : enum.length ≤ maxUrls := by
    rw [hperm.length_eq]
    exact collectedUrls_length f maxUrls budget
  rw [get_listing_urls, uniq_eq_self_of_nodup enum hnd, List.take_of_length_le hlen]
  exact hperm

/-- C3 witness: the amended theorem applied to the two-anchor feed with the
identity enumeration. -/
theorem c3_witness :
    (get_listing_urls 10 (collectedUrls twoFeed 10 60000)).Perm
      (collectedUrls twoFeed 10 60000) :=
  c3_output_permutes_first_seen twoFeed 10 60000 (collectedUrls twoFeed 10 60000)
    (List.Perm.refl _)

/-- C4 (counterexample): no 3.0 plausibility floor exists — a host section
showing `2.1/5` resolves the rating to the non-empty string `"2.1"`, whose
value 21/10 is below 3. -/
theorem c4_counterexample :
    (extract_host_block "https://www.airbnb.com" page21).host_overall_rating = some "2.1" ∧
    ∃ q : ℚ, ratStrVal "2.1" = some q ∧ q < 3 := by
  constructor
  · decide
  · refine ⟨((2 : ℕ) : ℚ) + ((1 : ℕ) : ℚ) / (10 : ℚ) ^ 1, rfl, ?_⟩
    push_cast
    norm_num

/-- C4 (amended): a non-empty resolved rating is always a point decimal (no
comma, a point present) whose value lies in `[0, 6)` — the regex shape
`[0-5]` with at most two decimals is the only filter, there is no lower
plausibility floor; `4,87 / 5` normalizes to `4.87`, and formatting is
Python float `str`, which strips trailing zeros (`4,90 / 5` gives `4.9`,
not two fixed decimals). -/
theorem c4_rating_normalization :
    (∀ (origin : String) (p : ListingPage) (s : String),
      (extract_host_block origin p).host_overall_rating = some s →
      ',' ∉ s.toList ∧ '.' ∈ s.toList ∧
      ∃ q : ℚ, ratStrVal s = some q ∧ 0 ≤ q ∧ q < 6) ∧
    (extract_host_block "https://www.airbnb.com" page487).host_overall_rating =
      some "4.87" ∧
    (extract_host_block "https://www.airbnb.com" page490).host_overall_rating =
      some "4.9" := by
  refine ⟨?_, by decide, by decide⟩
  intro origin p s h
  obtain ⟨rc, hwf, hs⟩ := extract_host_block_rating origin p s h
  rw [hs]
  exact pyRound2Str_wf rc hwf

/-- C4 witness: the amended theorem applied to the `2.1/5` fixture. -/
theorem c4_witness :
    ',' ∉ ("2.1").toList ∧ '.' ∈ ("2.1").toList ∧
    ∃ q : ℚ, ratStrVal "2.1" = some q ∧ 0 ≤ q ∧ q < 6 :=
  c4_rating_normalization.1 "https://www.airbnb.com" page21 "2.1" (by decide)

/-- C5: license resolution returns exactly the code when the label sits in
the same node or on the next non-empty sibling; on a page with no
recognizable label and no code-shaped token it returns no value, never
raises (it is a total function), and the assembled record carries the empty
string. -/
theorem c5_license_label_resolution :
    extract_license_code pageLicSame = some "ABC-DEF-1234" ∧
    extract_license_code pageLicSib = some "ABC-DEF-1234" ∧
    (∀ p : ListingPage,
      (∀ e ∈ p.elements, regLabelTest (pyTrim e.text) = false) →
      (∀ e ∈ p.elements, regCodeSearch (pyTrim e.text) = none) →
      regLabelIdx (String.mk (collapseWs p.bodyText.toList)) = none →
      regCodeSearch (String.mk (collapseWs p.bodyText.toList)) = none →
      extract_license_code p = none) ∧
    (processUrl "https://www.airbnb.com" "2026-02-03T00:00:00+00:00" "u"
        (Visit.ok visitLicNone)).map ListingRecord.license_code = some "" := by
  refine ⟨by decide, by decide, ?_, by decide⟩
  intro p hlab _ hbody _
  have h1 : p.elements.findSome? licElemCode = none := by
    rw [List.findSome?_eq_none_iff]
    intro e he
    unfold licElemCode
    by_cases ht : pyTrim e.text = ""
    · rw [if_pos ht]
    · rw [if_neg ht, if_neg (by simp [hlab e he])]
  unfold extract_license_code
  rw [h1]
  dsimp only
  rw [hbody]

/-- C5 witness: the general part applied to the empty page. -/
theorem c5_witness : extract_license_code pageLicNone = none :=
  c5_license_label_resolution.2.2.1 pageLicNone (by simp [pageLicNone])
    (by simp [pageLicNone]) (by decide) (by decide)

/-- C6 (counterexample): there is no Structured-Data reader — a page whose
embedded JSON payload contains the license `1100042` still resolves the
license from the visible labelled text (`9999999`), not from the payload. -/
theorem c6_counterexample :
    extract_license_code pageStructured = some "9999999" ∧
    extract_license_code pageStructured ≠ some "1100042" ∧
    (pageStructured.scripts.any fun sc => containsSub "1100042" sc) = true := by
  refine ⟨by decide, by decide, by decide⟩

/-- C6 (amended): license resolution reads only element and body text; it is
independent of any embedded script payload, so a structured JSON license
value is never consulted. -/
theorem c6_license_reads_no_structured_data (p : ListingPage) (s : List String) :
    extract_license_code { p with scripts := s } = extract_license_code p := rfl

/-- C7 (counterexample): no reviews-exclusion guard exists — on a page whose
only profile anchor is a reviewer link, every enclosing region of which
contains the reviews heading, the host name is taken from that anchor. -/
theorem c7_counterexample :
    (extract_host_block "https://www.airbnb.com" pageRev).host_name =
      some "Alice Reviewer" ∧
    (extract_host_block "https://www.airbnb.com" pageRev).host_profile_url =
      some "https://www.airbnb.com/users/show/999" ∧
    revAnchor.innerText = "Alice Reviewer" ∧
    (revAnchor.ancestorTexts.all fun t => containsSubCI "reviews" t) = true := by
  refine ⟨by decide, by decide, rfl, by decide⟩

/-- C7 (amended): anchor selection prefers host-keyword context, then
host-like `aria-label`/`title`, and otherwise falls back to the first
profile anchor on the page with no exclusion of reviews regions — so when no
host signal exists anywhere, the first `/users/show/` anchor is used
regardless of what encloses it. -/
theorem c7_no_reviews_exclusion (p : ListingPage)
    (h1 : ∀ a ∈ p.anchors,
      ((hostScanTexts a).any fun t => hostKeyTest (cleanStr t)) = false)
    (h2 : ∀ a ∈ p.anchors, hostKeyTest (a.ariaLabel ++ " " ++ a.titleAttr) = false) :
    chooseHostAnchor p = p.anchors.head? := by
  unfold chooseHostAnchor
  have hf1 : p.anchors.find?
      (fun a => (hostScanTexts a).any fun t => hostKeyTest (cleanStr t)) = none :=
    List.find?_eq_none.mpr (by intro a ha; simp [h1 a ha])
  have hf2 : p.anchors.find?
      (fun a => hostKeyTest (a.ariaLabel ++ " " ++ a.titleAttr)) = none :=
    List.find?_eq_none.mpr (by intro a ha; simp [h2 a ha])
  rw [hf1, hf2]

/-- C7 witness: the amended theorem applied to the reviewer-only page. -/
theorem c7_witness : chooseHostAnchor pageRev = pageRev.anchors.head? :=
  c7_no_reviews_exclusion pageRev (by decide) (by decide)

/-- C8: the elapsed-time budget is re-checked before every cycle and is a
hard bound — for every feed, even one that never stagnates and never reaches
`max_count`, collection stops with elapsed time at most the budget plus one
cycle's settle time (any uniform bound `B` on a cycle's duration). -/
theorem c8_budget_hard_bound (f : Feed) (maxUrls budget B : Nat)
    (hB : ∀ j, 600 + f.cycleExtra j ≤ B) :
    collectedElapsed f maxUrls budget ≤ budget + B := by
  rw [collectedElapsed, collectLoop_eq_gas f maxUrls budget budget 0 [] 0 0 (by nlinarith)]
  have h := collectLoopGas_time f maxUrls budget B hB budget 0 [] 0 0
  simpa using h

/-- C8 witness: the bound applied to a feed that never stagnates and never
yields any reference, with exact 600 ms cycles. -/
theorem c8_witness : collectedElapsed endlessFeed 10 1250 ≤ 1250 + 600 :=
  c8_budget_hard_bound endlessFeed 10 1250 600 (fun _ => Nat.le_refl 600)

/-- C9: the profile-enrichment pass never overwrites an already-resolved
host name or rating (a truthy current value is returned unchanged), and when
no profile reference was found it returns immediately — the same echo result
for every profile oracle, so no profile page is visited. -/
theorem c9_enrichment_only_fills (profiles : String → Option ProfilePage)
    (hostUrl curName curRating : Option String) :
    (∀ out, extract_from_host_profile profiles hostUrl curName curRating = Except.ok out →
      (truthy curName = true → out.host_name = curName) ∧
      (truthy curRating = true → out.host_overall_rating = curRating)) ∧
    (truthy hostUrl = false →
      extract_from_host_profile profiles hostUrl curName curRating =
        Except.ok ⟨curName, curRating, none⟩) := by
  constructor
  · intro out hok
    unfold extract_from_host_profile at hok
    by_cases ht : truthy hostUrl = true
    · rw [if_pos ht] at hok
      cases hostUrl with
      | none => exact absurd ht (by simp [truthy])
      | some u =>
        dsimp only at hok
        cases hpf : profiles u with
        | none =>
          rw [hpf] at hok
          exact Except.noConfusion hok
        | some pg =>
          rw [hpf] at hok
          dsimp only at hok
          rw [Except.ok.injEq] at hok
          subst hok
          constructor
          · intro hn
            simp [hn]
          · intro hr
            simp [hr]
    · rw [if_neg ht] at hok
      rw [Except.ok.injEq] at hok
      subst hok
      exact ⟨fun _ => rfl, fun _ => rfl⟩
  · intro hf
    unfold extract_from_host_profile
    rw [if_neg (by simp [hf])]

/-- C9 witness: a truthy name and rating survive a real profile visit
unchanged, and a missing reference yields the echo without consulting the
oracle. -/
theorem c9_witness :
    (⟨some "Bob", some "4.5", none⟩ : ProfileOut).host_name = some "Bob" ∧
    extract_from_host_profile profOracle none (some "Bob") none =
      Except.ok ⟨some "Bob", none, none⟩ := by
  constructor
  · exact ((c9_enrichment_only_fills profOracle (some "https://h")
      (some "Bob") (some "4.5")).1 ⟨some "Bob", some "4.5", none⟩ rfl).1 rfl
  · exact (c9_enrichment_only_fills profOracle none (some "Bob") none).2 rfl

/-- C10: `uniq` equals the manifest first-occurrence deduplicator, its
output has no duplicates, keeps exactly the elements of the input in input
order (it is a sublist), and `uniq` is idempotent. -/
theorem c10_uniq_algebra {α : Type} [DecidableEq α] (xs : List α) :
    uniq xs = firstSeenSpec xs ∧ (uniq xs).Nodup ∧ (∀ a, a ∈ uniq xs ↔ a ∈ xs) ∧
    (uniq xs).Sublist xs ∧ uniq (uniq xs) = uniq xs :=
  ⟨uniq_eq_firstSeen xs, uniq_nodup xs, fun a => mem_uniq xs a, uniqAux_sublist xs [],
   uniq_eq_self_of_nodup (uniq xs) (uniq_nodup xs)⟩

end Scrape
